import Mathlib

/-! Euclid's algorithm (package `euclid`)

A shallow embedding of `src/euclid/euclid.go`.

* Go's `int` is embedded as `Int`.  The only arithmetic the package performs is
  the remainder `m % n`; Go's remainder truncates toward zero (the sign follows
  the dividend), which is `Int.tmod`, and its absolute value never exceeds that
  of the dividend, so no operation of the package can leave the machine range
  (Go defines `MinInt % -1` as `0`, which is also what `Int.tmod` gives).
* A remainder with a zero divisor is a run-time panic in Go; it is embedded as
  `none`.  Every reduction function therefore returns `Option Int`.
* A Go `error` value is embedded as `Option String`: `none` is `nil`.
* Loops, the `goto` cycle and the recursion are embedded as well-founded
  recursions, so every function below is total and executable.
-/

namespace Euclid

set_option linter.unusedVariables false

/-- Go's `m % n` on `int`: the truncated remainder, and a panic (`none`) when
the divisor is zero. -/
def goMod (m n : Int) : Option Int :=
  if n = 0 then none else some (Int.tmod m n)

/-- The absolute value of a truncated remainder is the remainder of the
absolute values. -/
theorem natAbs_tmod (m n : Int) : (Int.tmod m n).natAbs = m.natAbs % n.natAbs := by
  cases m <;> cases n <;> simp [Int.tmod, Int.natAbs_neg] <;> rfl

/-- A remainder that was computed is smaller in absolute value than its divisor. -/
theorem goMod_natAbs_lt {m n r : Int} (h : goMod m n = some r) : r.natAbs < n.natAbs := by
  unfold goMod at h
  split at h
  · cases h
  · rename_i hn
    cases h
    rw [natAbs_tmod]
    exact Nat.mod_lt _ (Int.natAbs_pos.mpr hn)

/-- The signature `gcd_func` of the source: a reduction function on two `int`s. -/
abbrev gcd_func := Int → Int → Option Int

/-- The error value built by `errors.New` in `gcd`. -/
def errNotPositive : String := "gcd: integers are not positive"

/-- Source function `gcd`: the entry function with input checks.  The outer
`Option` is `none` when the reduction function panics; the pair is Go's
`(int, error)`. -/
def gcd (m n : Int) (f : gcd_func) : Option (Int × Option String) :=
  if m ≤ 0 ∨ n ≤ 0 then
    some (0, some errNotPositive)
  else
    -- E0. [Ensure m ≥ n.]
    let (m, n) := if m < n then (n, m) else (m, n)
    match f m n with
    | none => none
    | some g => some (g, none)

/-- Source function `gcd_e`: the classic implementation,
`for r := m % n; r != 0; r = m % n { m, n = n, r }; return n`. -/
def gcd_e (m n : Int) : Option Int :=
  match h : goMod m n with
  | none => none
  | some r => if r ≠ 0 then gcd_e n r else some n
termination_by n.natAbs
decreasing_by exact goMod_natAbs_lt h

/-- Source function `gcd_goto`: the implementation with `goto` statements.
Label `E1` is the entry of the function; `goto E1` is the recursive call and
`goto TERMINATE` returns `n`. -/
def gcd_goto (m n : Int) : Option Int :=
  -- E1:
  match h : goMod m n with
  | none => none
  | some r =>
    -- E2:
    if r = 0 then
      some n            -- goto TERMINATE
    else
      gcd_goto n r      -- E3: m = n; n = r; goto E1
termination_by n.natAbs
decreasing_by exact goMod_natAbs_lt h

/-- Source function `gcd_recursion`: the recursive implementation. -/
def gcd_recursion (m n : Int) : Option Int :=
  match h : goMod m n with
  | none => none
  | some r => if r = 0 then some n else gcd_recursion n r
termination_by n.natAbs
decreasing_by exact goMod_natAbs_lt h

/-- Source function `gcd_f`: the implementation avoiding trivial replacements,
`for { m = m % n; if m == 0 { return n }; n = n % m; if n == 0 { return m } }`. -/
def gcd_f (m n : Int) : Option Int :=
  match h1 : goMod m n with
  | none => none
  | some m1 =>
    if m1 = 0 then some n
    else
      match h2 : goMod n m1 with
      | none => none
      | some n1 => if n1 = 0 then some m1 else gcd_f m1 n1
termination_by n.natAbs
decreasing_by exact Nat.lt_trans (goMod_natAbs_lt h2) (goMod_natAbs_lt h1)

/-- The loop condition of `gcd_fs`: `m != 0 && n != 0`. -/
def gcd_fs_cond (m n : Int) : Bool := m != 0 && n != 0

/-- The loop body of `gcd_fs`: `m = m % n; if m != 0 { n = n % m }`, returning
the working pair after the body. -/
def gcd_fs_body (m n : Int) : Option (Int × Int) :=
  match goMod m n with
  | none => none
  | some m1 =>
    if m1 ≠ 0 then
      match goMod n m1 with
      | none => none
      | some n1 => some (m1, n1)
    else some (m1, n)

/-- One pass through the body of the loop of `gcd_fs`, entered with the loop
condition true, decreases the pair `(|n|, |m|)` lexicographically. -/
theorem gcd_fs_body_decreases {m n m1 n1 : Int} (hc : gcd_fs_cond m n = true)
    (hb : gcd_fs_body m n = some (m1, n1)) :
    Prod.Lex (· < ·) (· < ·) (n1.natAbs, m1.natAbs) (n.natAbs, m.natAbs) := by
  unfold gcd_fs_body at hb
  cases h1 : goMod m n with
  | none => simp [h1] at hb
  | some a =>
    simp only [h1] at hb
    by_cases ha : a = 0
    · simp [ha] at hb
      obtain ⟨rfl, rfl⟩ := hb
      have hm : m ≠ 0 := by
        intro h0
        simp [gcd_fs_cond, h0] at hc
      apply Prod.Lex.right
      simpa using Int.natAbs_pos.mpr hm
    · simp only [ne_eq, ha, not_false_eq_true, if_true] at hb
      cases h2 : goMod n a with
      | none => simp [h2] at hb
      | some b =>
        simp [h2] at hb
        obtain ⟨rfl, rfl⟩ := hb
        apply Prod.Lex.left
        exact Nat.lt_trans (goMod_natAbs_lt h2) (goMod_natAbs_lt h1)

/-- Source function `gcd_fs`: the implementation avoiding trivial replacement
and with only one loop's exit condition. -/
def gcd_fs (m n : Int) : Option Int :=
  if hc : gcd_fs_cond m n = true then
    match hb : gcd_fs_body m n with
    | none => none
    | some (m1, n1) => gcd_fs m1 n1
  else if m ≠ 0 then some m else some n
termination_by (n.natAbs, m.natAbs)
decreasing_by exact gcd_fs_body_decreases hc hb

/-- Source function `GCD`: the exported entry point, `gcd(m, n, gcd_fs)`. -/
def GCD (m n : Int) : Option (Int × Option String) :=
  gcd m n gcd_fs

/-- The straightforward single-variable reduction, written from the words of
the specification: `while b ≠ 0: a, b = b, a mod b; return a`, with `mod` the
mathematical (Euclidean) remainder. -/
def spec_simple_reduction (a b : Int) : Int :=
  if hb : b ≠ 0 then spec_simple_reduction b (a % b) else a
termination_by b.natAbs
decreasing_by
  have h0 : 0 ≤ a % b := Int.emod_nonneg a hb
  have h1 : a % b < |b| := Int.emod_lt a hb
  rw [Int.abs_eq_natAbs] at h1
  omega

/-- The answer of the specification's loop when it terminates: the non-zero
member of the working pair. -/
def spec_nonzero_member (a b : Int) : Int :=
  if a ≠ 0 then a else b

/-- The reduction loop, written from the words of the specification: maintain
a working pair `(a, b)`; at each step, if `a ≠ 0`, set `a ← a mod b`; then if
`b ≠ 0`, set `b ← b mod a`; terminate when `a = 0` or `b = 0`; the non-zero
member is the answer.  The loop stops as soon as one of the two values reaches
zero ("until one of the two values reaches zero; the other value at that point
is the GCD", "first remainder is 0, terminating immediately"), so the exit is
tested after each update.  A modulo with a zero divisor is a failure (`none`),
as in Go. -/
def spec_alternating_loop (a b : Int) : Option Int :=
  if hc : a = 0 ∨ b = 0 then some (spec_nonzero_member a b)
  else
    match h1 : (if a ≠ 0 then goMod a b else some a) with
    | none => none
    | some a1 =>
      if a1 = 0 ∨ b = 0 then some (spec_nonzero_member a1 b)
      else
        match h2 : (if b ≠ 0 then goMod b a1 else some b) with
        | none => none
        | some b1 => spec_alternating_loop a1 b1
termination_by b.natAbs
decreasing_by
  have ha : a ≠ 0 := fun h => hc (Or.inl h)
  have hb : b ≠ 0 := fun h => hc (Or.inr h)
  rw [dif_pos ha] at h1
  rw [dif_pos hb] at h2
  exact Nat.lt_trans (goMod_natAbs_lt h2) (goMod_natAbs_lt h1)

/-! ## Instrumented reductions

Each reduction is repeated with a log of the remainder operations it executes:
one entry `(dividend, divisor)` per `%`, in execution order, the failing one
included.  The second component is the value the reduction returns. -/

/-- The reduction `gcd_e` with the log of its remainder operations. -/
def gcd_e_run (m n : Int) : List (Int × Int) × Option Int :=
  match h : goMod m n with
  | none => ([(m, n)], none)
  | some r =>
    if r ≠ 0 then ((m, n) :: (gcd_e_run n r).1, (gcd_e_run n r).2)
    else ([(m, n)], some n)
termination_by n.natAbs
decreasing_by all_goals exact goMod_natAbs_lt h

/-- The reduction `gcd_goto` with the log of its remainder operations. -/
def gcd_goto_run (m n : Int) : List (Int × Int) × Option Int :=
  match h : goMod m n with
  | none => ([(m, n)], none)
  | some r =>
    if r = 0 then ([(m, n)], some n)
    else ((m, n) :: (gcd_goto_run n r).1, (gcd_goto_run n r).2)
termination_by n.natAbs
decreasing_by all_goals exact goMod_natAbs_lt h

/-- The reduction `gcd_recursion` with the log of its remainder operations. -/
def gcd_recursion_run (m n : Int) : List (Int × Int) × Option Int :=
  match h : goMod m n with
  | none => ([(m, n)], none)
  | some r =>
    if r = 0 then ([(m, n)], some n)
    else ((m, n) :: (gcd_recursion_run n r).1, (gcd_recursion_run n r).2)
termination_by n.natAbs
decreasing_by all_goals exact goMod_natAbs_lt h

/-- The reduction `gcd_f` with the log of its remainder operations. -/
def gcd_f_run (m n : Int) : List (Int × Int) × Option Int :=
  match h1 : goMod m n with
  | none => ([(m, n)], none)
  | some m1 =>
    if m1 = 0 then ([(m, n)], some n)
    else
      match h2 : goMod n m1 with
      | none => ([(m, n), (n, m1)], none)
      | some n1 =>
        if n1 = 0 then ([(m, n), (n, m1)], some m1)
        else ((m, n) :: (n, m1) :: (gcd_f_run m1 n1).1, (gcd_f_run m1 n1).2)
termination_by n.natAbs
decreasing_by all_goals exact Nat.lt_trans (goMod_natAbs_lt h2) (goMod_natAbs_lt h1)

/-- The loop body of `gcd_fs` with the log of its remainder operations. -/
def gcd_fs_body_run (m n : Int) : List (Int × Int) × Option (Int × Int) :=
  match goMod m n with
  | none => ([(m, n)], none)
  | some m1 =>
    if m1 ≠ 0 then
      match goMod n m1 with
      | none => ([(m, n), (n, m1)], none)
      | some n1 => ([(m, n), (n, m1)], some (m1, n1))
    else ([(m, n)], some (m1, n))

/-- The instrumented loop body returns what the loop body returns. -/
theorem gcd_fs_body_run_snd (m n : Int) : (gcd_fs_body_run m n).2 = gcd_fs_body m n := by
  unfold gcd_fs_body_run gcd_fs_body
  cases goMod m n with
  | none => rfl
  | some m1 =>
    by_cases h0 : m1 = 0
    · simp [h0]
    · simp only [ne_eq, h0, not_false_eq_true, if_true]
      cases goMod n m1 <;> rfl

/-- The reduction `gcd_fs` with the log of its remainder operations. -/
def gcd_fs_run (m n : Int) : List (Int × Int) × Option Int :=
  if hc : gcd_fs_cond m n = true then
    match hb : gcd_fs_body_run m n with
    | (log, none) => (log, none)
    | (log, some (m1, n1)) => (log ++ (gcd_fs_run m1 n1).1, (gcd_fs_run m1 n1).2)
  else ([], if m ≠ 0 then some m else some n)
termination_by (n.natAbs, m.natAbs)
decreasing_by
  all_goals
    apply gcd_fs_body_decreases hc
    rw [← gcd_fs_body_run_snd, hb]

/-- The working pair of `gcd_fs` after `k` passes through its loop: the body is
applied while the loop condition holds, and the pair at loop exit is kept. -/
def gcd_fs_iterate : Nat → Int → Int → Option (Int × Int)
  | 0, m, n => some (m, n)
  | k + 1, m, n =>
    match gcd_fs_iterate k m n with
    | none => none
    | some (a, b) => if gcd_fs_cond a b = true then gcd_fs_body a b else some (a, b)

/-- A logged remainder operation `(dividend, divisor)` stays in the range of
the bound `B`: the dividend is in `[0, B]` and the divisor in `(0, B]`. -/
def ModInRange (B : Int) (p : Int × Int) : Prop :=
  0 ≤ p.1 ∧ p.1 ≤ B ∧ 0 < p.2 ∧ p.2 ≤ B

instance (B : Int) (p : Int × Int) : Decidable (ModInRange B p) := by
  unfold ModInRange
  infer_instance

/-! ## Unfolding the reductions -/

theorem goMod_of_ne {m n : Int} (hn : n ≠ 0) : goMod m n = some (Int.tmod m n) := by
  simp [goMod, hn]

theorem goMod_natCast (a b : Nat) (hb : 0 < b) :
    goMod (a : Int) (b : Int) = some ((a % b : Nat) : Int) := by
  have hb0 : (b : Int) ≠ 0 := by exact_mod_cast Nat.pos_iff_ne_zero.mp hb
  rw [goMod_of_ne hb0, Int.ofNat_tmod]

theorem gcd_e_step (m n : Int) (hn : n ≠ 0) :
    gcd_e m n = if Int.tmod m n ≠ 0 then gcd_e n (Int.tmod m n) else some n := by
  rw [gcd_e]
  split
  · rename_i h; simp [goMod_of_ne hn] at h
  · rename_i r h
    rw [goMod_of_ne hn] at h
    cases h; rfl

theorem gcd_goto_step (m n : Int) (hn : n ≠ 0) :
    gcd_goto m n = if Int.tmod m n = 0 then some n else gcd_goto n (Int.tmod m n) := by
  rw [gcd_goto]
  split
  · rename_i h; simp [goMod_of_ne hn] at h
  · rename_i r h
    rw [goMod_of_ne hn] at h
    cases h; rfl

theorem gcd_recursion_step (m n : Int) (hn : n ≠ 0) :
    gcd_recursion m n =
      if Int.tmod m n = 0 then some n else gcd_recursion n (Int.tmod m n) := by
  rw [gcd_recursion]
  split
  · rename_i h; simp [goMod_of_ne hn] at h
  · rename_i r h
    rw [goMod_of_ne hn] at h
    cases h; rfl

theorem gcd_f_step (m n : Int) (hn : n ≠ 0) :
    gcd_f m n =
      if Int.tmod m n = 0 then some n
      else if Int.tmod n (Int.tmod m n) = 0 then some (Int.tmod m n)
      else gcd_f (Int.tmod m n) (Int.tmod n (Int.tmod m n)) := by
  rw [gcd_f]
  split
  · rename_i h; simp [goMod_of_ne hn] at h
  · rename_i m1 h
    rw [goMod_of_ne hn] at h
    cases h
    by_cases h0 : Int.tmod m n = 0
    · simp [h0]
    · simp only [h0, if_false]
      split
      · rename_i h; simp [goMod_of_ne h0] at h
      · rename_i n1 h
        rw [goMod_of_ne h0] at h
        cases h; rfl

theorem gcd_fs_body_of_ne (m n : Int) (hn : n ≠ 0) :
    gcd_fs_body m n =
      if Int.tmod m n ≠ 0 then some (Int.tmod m n, Int.tmod n (Int.tmod m n))
      else some (Int.tmod m n, n) := by
  unfold gcd_fs_body
  rw [goMod_of_ne hn]
  by_cases h0 : Int.tmod m n = 0
  · simp [h0]
  · simp [h0, goMod_of_ne h0]

theorem gcd_fs_exit (m n : Int) (hc : gcd_fs_cond m n = false) :
    gcd_fs m n = if m ≠ 0 then some m else some n := by
  rw [gcd_fs]
  simp [hc]

theorem gcd_fs_step (m n : Int) (hm : m ≠ 0) (hn : n ≠ 0) :
    gcd_fs m n =
      if Int.tmod m n ≠ 0 then gcd_fs (Int.tmod m n) (Int.tmod n (Int.tmod m n))
      else gcd_fs (Int.tmod m n) n := by
  have hc : gcd_fs_cond m n = true := by simp [gcd_fs_cond, hm, hn]
  rw [gcd_fs]
  simp only [hc, dite_true]
  split
  · rename_i h
    rw [gcd_fs_body_of_ne m n hn] at h
    split at h <;> simp at h
  · rename_i m1 n1 h
    rw [gcd_fs_body_of_ne m n hn] at h
    by_cases h0 : Int.tmod m n = 0
    · simp [h0] at h
      obtain ⟨rfl, rfl⟩ := h
      simp [h0]
    · simp [h0] at h
      obtain ⟨rfl, rfl⟩ := h
      simp [h0]

/-! ## The reductions on non-negative arguments compute `Nat.gcd` -/

theorem tmod_natCast (a b : Nat) : Int.tmod (a : Int) (b : Int) = ((a % b : Nat) : Int) :=
  (Int.ofNat_tmod a b).symm

theorem natCast_ne_zero_of_pos {b : Nat} (hb : 0 < b) : (b : Int) ≠ 0 := by
  exact_mod_cast Nat.pos_iff_ne_zero.mp hb

theorem nat_gcd_step (a b : Nat) : Nat.gcd b (a % b) = Nat.gcd a b := by
  rw [Nat.gcd_comm b (a % b), ← Nat.gcd_rec, Nat.gcd_comm]

theorem nat_gcd_of_mod_eq_zero {a b : Nat} (h : a % b = 0) : Nat.gcd a b = b :=
  Nat.gcd_eq_right (Nat.dvd_of_mod_eq_zero h)

theorem gcd_e_nat (a b : Nat) (hb : 0 < b) :
    gcd_e (a : Int) (b : Int) = some ((Nat.gcd a b : Nat) : Int) := by
  induction b using Nat.strong_induction_on generalizing a with
  | _ b ih =>
    rw [gcd_e_step _ _ (natCast_ne_zero_of_pos hb), tmod_natCast]
    by_cases h0 : a % b = 0
    · simp [h0, nat_gcd_of_mod_eq_zero h0]
    · have hr : ((a % b : Nat) : Int) ≠ 0 := by exact_mod_cast h0
      rw [if_pos hr, ih (a % b) (Nat.mod_lt _ hb) b (Nat.pos_of_ne_zero h0), nat_gcd_step]

theorem gcd_goto_nat (a b : Nat) (hb : 0 < b) :
    gcd_goto (a : Int) (b : Int) = some ((Nat.gcd a b : Nat) : Int) := by
  induction b using Nat.strong_induction_on generalizing a with
  | _ b ih =>
    rw [gcd_goto_step _ _ (natCast_ne_zero_of_pos hb), tmod_natCast]
    by_cases h0 : a % b = 0
    · simp [h0, nat_gcd_of_mod_eq_zero h0]
    · have hr : ((a % b : Nat) : Int) ≠ 0 := by exact_mod_cast h0
      rw [if_neg hr, ih (a % b) (Nat.mod_lt _ hb) b (Nat.pos_of_ne_zero h0), nat_gcd_step]

theorem gcd_recursion_nat (a b : Nat) (hb : 0 < b) :
    gcd_recursion (a : Int) (b : Int) = some ((Nat.gcd a b : Nat) : Int) := by
  induction b using Nat.strong_induction_on generalizing a with
  | _ b ih =>
    rw [gcd_recursion_step _ _ (natCast_ne_zero_of_pos hb), tmod_natCast]
    by_cases h0 : a % b = 0
    · simp [h0, nat_gcd_of_mod_eq_zero h0]
    · have hr : ((a % b : Nat) : Int) ≠ 0 := by exact_mod_cast h0
      rw [if_neg hr, ih (a % b) (Nat.mod_lt _ hb) b (Nat.pos_of_ne_zero h0), nat_gcd_step]

theorem gcd_f_nat (a b : Nat) (hb : 0 < b) :
    gcd_f (a : Int) (b : Int) = some ((Nat.gcd a b : Nat) : Int) := by
  induction b using Nat.strong_induction_on generalizing a with
  | _ b ih =>
    rw [gcd_f_step _ _ (natCast_ne_zero_of_pos hb), tmod_natCast, tmod_natCast]
    by_cases h0 : a % b = 0
    · simp [h0, nat_gcd_of_mod_eq_zero h0]
    · have hr : ((a % b : Nat) : Int) ≠ 0 := by exact_mod_cast h0
      have hlt : a % b < b := Nat.mod_lt _ hb
      rw [if_neg hr]
      by_cases h1 : b % (a % b) = 0
      · have hr1 : ((b % (a % b) : Nat) : Int) = 0 := by exact_mod_cast h1
        rw [if_pos hr1, ← nat_gcd_step a b, nat_gcd_of_mod_eq_zero h1]
      · have hr1 : ((b % (a % b) : Nat) : Int) ≠ 0 := by exact_mod_cast h1
        have hlt1 : b % (a % b) < a % b := Nat.mod_lt _ (Nat.pos_of_ne_zero h0)
        rw [if_neg hr1, ih (b % (a % b)) (Nat.lt_trans hlt1 hlt) (a % b)
          (Nat.pos_of_ne_zero h1), nat_gcd_step, nat_gcd_step]

theorem gcd_fs_nat (a b : Nat) :
    gcd_fs (a : Int) (b : Int) = some ((Nat.gcd a b : Nat) : Int) := by
  induction b using Nat.strong_induction_on generalizing a with
  | _ b ih =>
    by_cases ha : a = 0
    · subst ha
      rw [gcd_fs_exit _ _ (by simp [gcd_fs_cond])]
      simp
    by_cases hb : b = 0
    · subst hb
      rw [gcd_fs_exit _ _ (by simp [gcd_fs_cond])]
      simp [ha]
    have hbpos : 0 < b := Nat.pos_of_ne_zero hb
    have ha0 : (a : Int) ≠ 0 := by exact_mod_cast ha
    rw [gcd_fs_step _ _ ha0 (natCast_ne_zero_of_pos hbpos), tmod_natCast]
    by_cases h0 : a % b = 0
    · have hexit : gcd_fs 0 (b : Int) = some (b : Int) := by
        rw [gcd_fs_exit _ _ (by simp [gcd_fs_cond])]
        simp
      simp [h0, hexit, nat_gcd_of_mod_eq_zero h0]
    · have hr : ((a % b : Nat) : Int) ≠ 0 := by exact_mod_cast h0
      have hlt : a % b < b := Nat.mod_lt _ hbpos
      have hlt1 : b % (a % b) < a % b := Nat.mod_lt _ (Nat.pos_of_ne_zero h0)
      rw [if_pos hr, tmod_natCast, ih (b % (a % b)) (Nat.lt_trans hlt1 hlt) (a % b),
        nat_gcd_step, nat_gcd_step]

theorem spec_simple_reduction_nat (a b : Nat) :
    spec_simple_reduction (a : Int) (b : Int) = ((Nat.gcd a b : Nat) : Int) := by
  induction b using Nat.strong_induction_on generalizing a with
  | _ b ih =>
    rw [spec_simple_reduction]
    by_cases hb : b = 0
    · subst hb; simp
    · have hb0 : (b : Int) ≠ 0 := by exact_mod_cast hb
      rw [dif_pos hb0, ← Int.natCast_mod, ih (a % b) (Nat.mod_lt _ (Nat.pos_of_ne_zero hb)) b,
        nat_gcd_step]

/-! ## The entry function on valid and invalid inputs -/

theorem gcd_invalid (m n : Int) (f : gcd_func) (h : m ≤ 0 ∨ n ≤ 0) :
    gcd m n f = some (0, some errNotPositive) := by
  simp [gcd, h]

theorem gcd_valid (m n : Int) (f : gcd_func) (hm : 0 < m) (hn : 0 < n) :
    gcd m n f =
      match f (max m n) (min m n) with
      | none => none
      | some g => some (g, none) := by
  have h : ¬ (m ≤ 0 ∨ n ≤ 0) := by omega
  unfold gcd
  rw [if_neg h]
  by_cases hlt : m < n
  · simp [hlt, max_eq_right hlt.le, min_eq_left hlt.le]
  · have hle : n ≤ m := not_lt.mp hlt
    simp [hlt, max_eq_left hle, min_eq_right hle]

/-- A reduction function that computes `Nat.gcd` on natural arguments with a
positive second argument makes `gcd` return `Int.gcd m n` and a nil error. -/
theorem gcd_valid_of_nat (f : gcd_func)
    (hf : ∀ a b : Nat, 0 < b → f (a : Int) (b : Int) = some ((Nat.gcd a b : Nat) : Int))
    (m n : Int) (hm : 0 < m) (hn : 0 < n) :
    gcd m n f = some (((Int.gcd m n : Nat) : Int), none) := by
  rw [gcd_valid m n f hm hn]
  obtain ⟨a, rfl⟩ := Int.eq_ofNat_of_zero_le hm.le
  obtain ⟨b, rfl⟩ := Int.eq_ofNat_of_zero_le hn.le
  have ha : 0 < a := by exact_mod_cast hm
  have hb : 0 < b := by exact_mod_cast hn
  have hmax : max (a : Int) (b : Int) = ((max a b : Nat) : Int) := by simp
  have hmin : min (a : Int) (b : Int) = ((min a b : Nat) : Int) := by simp
  have hg : Nat.gcd (max a b) (min a b) = Nat.gcd a b := by
    rcases le_total a b with h | h
    · rw [max_eq_right h, min_eq_left h, Nat.gcd_comm]
    · rw [max_eq_left h, min_eq_right h]
  rw [hmax, hmin, hf _ _ (lt_min ha hb), hg]
  simp [Int.gcd]

theorem GCD_eq_gcd (m n : Int) (hm : 0 < m) (hn : 0 < n) :
    GCD m n = some (((Int.gcd m n : Nat) : Int), none) :=
  gcd_valid_of_nat gcd_fs (fun a b _ => gcd_fs_nat a b) m n hm hn

theorem int_gcd_pos_of_pos (m n : Int) (hm : 0 < m) : (0 : Int) < ((Int.gcd m n : Nat) : Int) := by
  exact_mod_cast Int.gcd_pos_of_ne_zero_left n hm.ne.symm

/-! ## The claims -/

/-- C1: for all strictly positive `m` and `n`, `GCD m n` returns a nil error and
a result `g` for which both `m % g` and `n % g` are computed and are zero. -/
theorem GCD_divides_both (m n : Int) (hm : 0 < m) (hn : 0 < n) :
    ∃ g, GCD m n = some (g, none) ∧ goMod m g = some 0 ∧ goMod n g = some 0 := by
  refine ⟨((Int.gcd m n : Nat) : Int), GCD_eq_gcd m n hm hn, ?_, ?_⟩
  · rw [goMod_of_ne (int_gcd_pos_of_pos m n hm).ne.symm,
      Int.tmod_eq_zero_of_dvd (Int.gcd_dvd_left)]
  · rw [goMod_of_ne (int_gcd_pos_of_pos m n hm).ne.symm,
      Int.tmod_eq_zero_of_dvd (Int.gcd_dvd_right)]

theorem GCD_divides_both_witness :
    ∃ g, GCD 12 18 = some (g, none) ∧ goMod 12 g = some 0 ∧ goMod 18 g = some 0 :=
  GCD_divides_both 12 18 (by decide) (by decide)

/-- C2: for all strictly positive `m` and `n`, the result `g` of `GCD m n` is the
largest common divisor: `g` is positive and divides both `m` and `n`, and every
positive `d` dividing both `m` and `n` satisfies `d ≤ g`, and in fact `d`
divides `g`. -/
theorem GCD_greatest (m n : Int) (hm : 0 < m) (hn : 0 < n) :
    ∃ g, GCD m n = some (g, none) ∧ 0 < g ∧ g ∣ m ∧ g ∣ n ∧
      ∀ d : Int, 0 < d → d ∣ m → d ∣ n → d ≤ g ∧ d ∣ g := by
  refine ⟨((Int.gcd m n : Nat) : Int), GCD_eq_gcd m n hm hn, int_gcd_pos_of_pos m n hm,
    Int.gcd_dvd_left, Int.gcd_dvd_right, ?_⟩
  intro d _ hdm hdn
  have hdvd : d ∣ ((Int.gcd m n : Nat) : Int) := Int.dvd_gcd hdm hdn
  exact ⟨Int.le_of_dvd (int_gcd_pos_of_pos m n hm) hdvd, hdvd⟩

theorem GCD_greatest_witness :
    ∃ g, GCD 12 18 = some (g, none) ∧ 0 < g ∧ g ∣ 12 ∧ g ∣ 18 ∧
      ∀ d : Int, 0 < d → d ∣ 12 → d ∣ 18 → d ≤ g ∧ d ∣ g :=
  GCD_greatest 12 18 (by decide) (by decide)

/-- C3: for all integers `m` and `n`, `GCD m n` returns, and its error is non-nil
exactly when `m ≤ 0` or `n ≤ 0`; in the error case the returned integer is `0`,
and `gcd m n f` is `(0, error)` for every reduction function `f`, also one that
panics on every call, so `f` is not invoked. -/
theorem GCD_error_iff (m n : Int) :
    (∃ v e, GCD m n = some (v, e) ∧ (e ≠ none ↔ (m ≤ 0 ∨ n ≤ 0)) ∧ (e ≠ none → v = 0)) ∧
    ((m ≤ 0 ∨ n ≤ 0) → ∀ f : gcd_func, gcd m n f = some (0, some errNotPositive)) := by
  refine ⟨?_, fun h f => gcd_invalid m n f h⟩
  by_cases h : m ≤ 0 ∨ n ≤ 0
  · exact ⟨0, some errNotPositive, gcd_invalid m n gcd_fs h, by simp [h], fun _ => rfl⟩
  · have hm : 0 < m := by omega
    have hn : 0 < n := by omega
    exact ⟨_, none, GCD_eq_gcd m n hm hn, by simp [h], by simp⟩

theorem GCD_error_iff_witness :
    ∀ f : gcd_func, gcd 0 2 f = some (0, some errNotPositive) :=
  (GCD_error_iff 0 2).2 (Or.inl (le_refl 0))

/-- C4: commutativity: for all integers `m` and `n`, valid or not, `GCD m n` and
`GCD n m` return the same integer and the same error status. -/
theorem GCD_comm (m n : Int) : GCD m n = GCD n m := by
  by_cases h : m ≤ 0 ∨ n ≤ 0
  · rw [GCD, GCD, gcd_invalid m n gcd_fs h, gcd_invalid n m gcd_fs h.symm]
  · have hm : 0 < m := by omega
    have hn : 0 < n := by omega
    rw [GCD, GCD, gcd_valid m n gcd_fs hm hn, gcd_valid n m gcd_fs hn hm, max_comm, min_comm]

/-- C5: all five reduction strategies agree: for all strictly positive `m` and
`n`, `gcd m n f` returns the same value with a nil error for each `f` among
`gcd_e`, `gcd_goto`, `gcd_recursion`, `gcd_f` and `gcd_fs`. -/
theorem all_implementations_agree (m n : Int) (hm : 0 < m) (hn : 0 < n) :
    ∃ g, ∀ f ∈ [gcd_e, gcd_goto, gcd_recursion, gcd_f, gcd_fs],
      gcd m n f = some (g, none) := by
  refine ⟨((Int.gcd m n : Nat) : Int), ?_⟩
  intro f hf
  simp only [List.mem_cons, List.mem_singleton, List.not_mem_nil, or_false] at hf
  rcases hf with rfl | rfl | rfl | rfl | rfl
  · exact gcd_valid_of_nat gcd_e gcd_e_nat m n hm hn
  · exact gcd_valid_of_nat gcd_goto gcd_goto_nat m n hm hn
  · exact gcd_valid_of_nat gcd_recursion gcd_recursion_nat m n hm hn
  · exact gcd_valid_of_nat gcd_f gcd_f_nat m n hm hn
  · exact gcd_valid_of_nat gcd_fs (fun a b _ => gcd_fs_nat a b) m n hm hn

theorem all_implementations_agree_witness :
    ∃ g, ∀ f ∈ [gcd_e, gcd_goto, gcd_recursion, gcd_f, gcd_fs],
      gcd 12 18 f = some (g, none) :=
  all_implementations_agree 12 18 (by decide) (by decide)

/-- C6: for all strictly positive `m` and `n`, `GCD m n` returns, with a nil
error, the value of the straightforward single-variable reduction
`while b ≠ 0: a, b = b, a mod b; return a` started from `(a, b) = (m, n)`. -/
theorem GCD_eq_simple_reduction (m n : Int) (hm : 0 < m) (hn : 0 < n) :
    GCD m n = some (spec_simple_reduction m n, none) := by
  rw [GCD_eq_gcd m n hm hn]
  obtain ⟨a, rfl⟩ := Int.eq_ofNat_of_zero_le hm.le
  obtain ⟨b, rfl⟩ := Int.eq_ofNat_of_zero_le hn.le
  rw [spec_simple_reduction_nat]
  simp [Int.gcd]

theorem GCD_eq_simple_reduction_witness :
    GCD 12 18 = some (spec_simple_reduction 12 18, none) :=
  GCD_eq_simple_reduction 12 18 (by decide) (by decide)

/-- C7: for every strictly positive `m`, `GCD m m` returns `m` with a nil error:
`gcd` passes `(m, m)` to the reduction function unchanged, the loop of `gcd_fs`
is entered, the first remainder `m % m` is `0`, the body leaves the working
pair `(0, m)`, and the loop condition is then false, so the loop is left after
a single iteration. -/
theorem GCD_self (m : Int) (hm : 0 < m) :
    GCD m m = some (m, none) ∧
    (∀ f : gcd_func, gcd m m f = match f m m with
      | none => none
      | some g => some (g, none)) ∧
    gcd_fs_cond m m = true ∧
    goMod m m = some 0 ∧
    gcd_fs_body m m = some (0, m) ∧
    gcd_fs_cond 0 m = false ∧
    gcd_fs 0 m = some m := by
  have hm0 : m ≠ 0 := hm.ne.symm
  have hexit : gcd_fs 0 m = some m := by
    rw [gcd_fs_exit _ _ (by simp [gcd_fs_cond])]
    simp
  refine ⟨?_, ?_, ?_, ?_, ?_, ?_, hexit⟩
  · rw [GCD, gcd_valid m m gcd_fs hm hm, max_self, min_self, gcd_fs_step m m hm0 hm0]
    simp [hexit]
  · intro f
    rw [gcd_valid m m f hm hm, max_self, min_self]
  · simp [gcd_fs_cond, hm0]
  · rw [goMod_of_ne hm0, Int.tmod_self]
  · rw [gcd_fs_body_of_ne m m hm0]
    simp
  · simp [gcd_fs_cond]

theorem GCD_self_witness :
    GCD 5 5 = some (5, none) ∧
    (∀ f : gcd_func, gcd 5 5 f = match f 5 5 with
      | none => none
      | some g => some (g, none)) ∧
    gcd_fs_cond 5 5 = true ∧
    goMod 5 5 = some 0 ∧
    gcd_fs_body 5 5 = some (0, 5) ∧
    gcd_fs_cond 0 5 = false ∧
    gcd_fs 0 5 = some 5 :=
  GCD_self 5 (by decide)

/-- C8: for every strictly positive `n`, `GCD 1 n` returns `1` with a nil error. -/
theorem GCD_one_left (n : Int) (hn : 0 < n) : GCD 1 n = some (1, none) := by
  rw [GCD_eq_gcd 1 n (by decide) hn]
  simp [Int.gcd]

theorem GCD_one_left_witness : GCD 1 7 = some (1, none) :=
  GCD_one_left 7 (by decide)

/-- C9: for all strictly positive `m` and `n`, the value returned by `GCD m n`
is itself strictly positive. -/
theorem GCD_result_pos (m n : Int) (hm : 0 < m) (hn : 0 < n) :
    ∃ g, GCD m n = some (g, none) ∧ 0 < g :=
  ⟨_, GCD_eq_gcd m n hm hn, int_gcd_pos_of_pos m n hm⟩

theorem GCD_result_pos_witness : ∃ g, GCD 12 18 = some (g, none) ∧ 0 < g :=
  GCD_result_pos 12 18 (by decide) (by decide)

/-- C10: `GCD 2166 6099` returns `57` with a nil error, and so does
`gcd 2166 6099 f` for each of the five implementations `gcd_e`, `gcd_goto`,
`gcd_recursion`, `gcd_f` and `gcd_fs`. -/
theorem GCD_2166_6099 :
    GCD 2166 6099 = some (57, none) ∧
    gcd 2166 6099 gcd_e = some (57, none) ∧
    gcd 2166 6099 gcd_goto = some (57, none) ∧
    gcd 2166 6099 gcd_recursion = some (57, none) ∧
    gcd 2166 6099 gcd_f = some (57, none) ∧
    gcd 2166 6099 gcd_fs = some (57, none) := by
  have hg : (((Int.gcd 2166 6099 : Nat) : Int)) = 57 := by
    have : Int.gcd 2166 6099 = 57 := by decide
    rw [this]; rfl
  rw [← hg]
  exact ⟨GCD_eq_gcd _ _ (by decide) (by decide),
    gcd_valid_of_nat gcd_e gcd_e_nat _ _ (by decide) (by decide),
    gcd_valid_of_nat gcd_goto gcd_goto_nat _ _ (by decide) (by decide),
    gcd_valid_of_nat gcd_recursion gcd_recursion_nat _ _ (by decide) (by decide),
    gcd_valid_of_nat gcd_f gcd_f_nat _ _ (by decide) (by decide),
    gcd_valid_of_nat gcd_fs (fun a b _ => gcd_fs_nat a b) _ _ (by decide) (by decide)⟩

/-! ## The loop of `gcd_fs` on arbitrary integers, and the loop of the specification -/

theorem natAbs_tmod_lt (m : Int) {n : Int} (hn : n ≠ 0) :
    (Int.tmod m n).natAbs < n.natAbs := by
  rw [natAbs_tmod]
  exact Nat.mod_lt _ (Int.natAbs_pos.mpr hn)

theorem gcd_fs_cond_false_iff (m n : Int) : gcd_fs_cond m n = false ↔ ¬ (m ≠ 0 ∧ n ≠ 0) := by
  simp [gcd_fs_cond]

theorem gcd_fs_zero_left (n : Int) : gcd_fs 0 n = some n := by
  rw [gcd_fs_exit _ _ (by simp [gcd_fs_cond])]
  simp

theorem gcd_fs_zero_right (m : Int) : gcd_fs m 0 = some m := by
  rw [gcd_fs_exit _ _ (by simp [gcd_fs_cond])]
  by_cases hm : m = 0 <;> simp [hm]

/-- The loop of `gcd_fs` returns on every pair of integers. -/
theorem gcd_fs_returns (m n : Int) : ∃ g, gcd_fs m n = some g := by
  generalize hk : n.natAbs = k
  induction k using Nat.strong_induction_on generalizing m n with
  | _ k ih =>
    subst hk
    by_cases hm : m = 0
    · subst hm; exact ⟨n, gcd_fs_zero_left n⟩
    by_cases hn : n = 0
    · subst hn; exact ⟨m, gcd_fs_zero_right m⟩
    rw [gcd_fs_step m n hm hn]
    by_cases h0 : Int.tmod m n = 0
    · rw [if_neg (by simpa using h0), h0]
      exact ⟨n, gcd_fs_zero_left n⟩
    · rw [if_pos h0]
      exact ih _ (Nat.lt_trans (natAbs_tmod_lt n h0) (natAbs_tmod_lt m hn)) _ _ rfl

theorem spec_alternating_loop_exit (a b : Int) (hc : a = 0 ∨ b = 0) :
    spec_alternating_loop a b = some (spec_nonzero_member a b) := by
  rw [spec_alternating_loop, dif_pos hc]

theorem spec_alternating_loop_step (a b : Int) (ha : a ≠ 0) (hb : b ≠ 0) :
    spec_alternating_loop a b =
      if Int.tmod a b = 0 then some b
      else spec_alternating_loop (Int.tmod a b) (Int.tmod b (Int.tmod a b)) := by
  have hc : ¬ (a = 0 ∨ b = 0) := fun h => h.elim ha hb
  rw [spec_alternating_loop, dif_neg hc]
  split
  · rename_i h
    rw [if_pos ha, goMod_of_ne hb] at h
    cases h
  · rename_i a1 h
    rw [if_pos ha, goMod_of_ne hb] at h
    cases h
    by_cases h0 : Int.tmod a b = 0
    · simp [h0, spec_nonzero_member]
    · have hc1 : ¬ (Int.tmod a b = 0 ∨ b = 0) := fun h => h.elim h0 hb
      rw [if_neg hc1, if_neg h0]
      split
      · rename_i h
        rw [if_pos hb, goMod_of_ne h0] at h
        cases h
      · rename_i b1 h
        rw [if_pos hb, goMod_of_ne h0] at h
        cases h
        rfl

/-- The loop of `gcd_fs` is the loop of the specification, on every pair of
integers. -/
theorem gcd_fs_eq_spec_alternating_loop (m n : Int) :
    gcd_fs m n = spec_alternating_loop m n := by
  generalize hk : n.natAbs = k
  induction k using Nat.strong_induction_on generalizing m n with
  | _ k ih =>
    subst hk
    by_cases hc : m ≠ 0 ∧ n ≠ 0
    · rw [gcd_fs_step m n hc.1 hc.2, spec_alternating_loop_step m n hc.1 hc.2]
      by_cases h0 : Int.tmod m n = 0
      · simp only [h0, ne_eq, not_true, if_false, if_true]
        exact gcd_fs_zero_left n
      · rw [if_pos h0, if_neg h0]
        exact ih _ (Nat.lt_trans (natAbs_tmod_lt n h0) (natAbs_tmod_lt m hc.2)) _ _ rfl
    · have hz : m = 0 ∨ n = 0 := by
        by_cases hm : m = 0
        · exact Or.inl hm
        · exact Or.inr (by_contra fun hn => hc ⟨hm, hn⟩)
      rw [gcd_fs_exit m n ((gcd_fs_cond_false_iff m n).mpr hc),
        spec_alternating_loop_exit m n hz]
      by_cases hm : m = 0 <;> simp [hm, spec_nonzero_member]

theorem gcd_fs_pos_of_pos (m n : Int) (hm : 0 < m) (hn : 0 < n) :
    ∃ g, gcd_fs m n = some g ∧ 0 < g := by
  obtain ⟨a, rfl⟩ := Int.eq_ofNat_of_zero_le hm.le
  obtain ⟨b, rfl⟩ := Int.eq_ofNat_of_zero_le hn.le
  have ha : 0 < a := by exact_mod_cast hm
  refine ⟨_, gcd_fs_nat a b, ?_⟩
  exact_mod_cast Nat.gcd_pos_of_pos_left b ha

/-! ## The claims on the behaviour of the reductions -/

/-- C11: the reduction loop run by `GCD` is the loop the specification
describes: for all positive integers `m ≥ n`, `gcd_fs m n` equals the result of
the loop on the working pair `(a, b) = (m, n)` that, at each step, sets
`a ← a mod b` if `a ≠ 0`, then sets `b ← b mod a` if `b ≠ 0`, terminates when
`a = 0` or `b = 0` and answers the non-zero member, where a modulo with a zero
divisor is a failure; neither loop fails, and the answer is not zero. -/
theorem gcd_fs_refines_spec_loop (m n : Int) (hn : 0 < n) (hmn : n ≤ m) :
    gcd_fs m n = spec_alternating_loop m n ∧
    ∃ g, gcd_fs m n = some g ∧ spec_alternating_loop m n = some g ∧ g ≠ 0 := by
  have hm : 0 < m := lt_of_lt_of_le hn hmn
  obtain ⟨g, hg, hpos⟩ := gcd_fs_pos_of_pos m n hm hn
  refine ⟨gcd_fs_eq_spec_alternating_loop m n, g, hg, ?_, hpos.ne.symm⟩
  rw [← gcd_fs_eq_spec_alternating_loop m n, hg]

theorem gcd_fs_refines_spec_loop_witness :
    gcd_fs 6 4 = spec_alternating_loop 6 4 ∧
    ∃ g, gcd_fs 6 4 = some g ∧ spec_alternating_loop 6 4 = some g ∧ g ≠ 0 :=
  gcd_fs_refines_spec_loop 6 4 (by decide) (by decide)

/-- C12: normalisation: for all strictly positive `m` and `n` and every
reduction function `f`, `gcd m n f` is the result of `f (max m n) (min m n)`
with a nil error (and panics when that call panics); the first argument passed
to `f` is greater than or equal to the second, and both are positive. -/
theorem gcd_normalises (m n : Int) (hm : 0 < m) (hn : 0 < n) (f : gcd_func) :
    gcd m n f = (f (max m n) (min m n)).map (fun g => (g, none)) ∧
    min m n ≤ max m n ∧ 0 < min m n ∧ 0 < max m n := by
  refine ⟨?_, min_le_max, lt_min hm hn, lt_max_of_lt_left hm⟩
  rw [gcd_valid m n f hm hn]
  cases f (max m n) (min m n) <;> rfl

theorem gcd_normalises_witness :
    gcd 4 6 gcd_e = (gcd_e (max 4 6) (min 4 6)).map (fun g => (g, none)) ∧
    min (4 : Int) 6 ≤ max 4 6 ∧ 0 < min (4 : Int) 6 ∧ 0 < max (4 : Int) 6 :=
  gcd_normalises 4 6 (by decide) (by decide) gcd_e

/-- For a non-negative dividend and a positive divisor, Go's remainder is
computed, is non-negative and is smaller than the divisor. -/
theorem goMod_bounds (m n : Int) (hm : 0 ≤ m) (hn : 0 < n) :
    goMod m n = some (Int.tmod m n) ∧ 0 ≤ Int.tmod m n ∧ Int.tmod m n < n :=
  ⟨goMod_of_ne hn.ne.symm, Int.tmod_nonneg n hm, Int.tmod_lt_of_pos m hn⟩

theorem reduction_returns_of_nat (f : gcd_func)
    (hf : ∀ a b : Nat, 0 < b → f (a : Int) (b : Int) = some ((Nat.gcd a b : Nat) : Int))
    (m n : Int) (hm : 0 ≤ m) (hn : 0 < n) :
    f m n = some (((Int.gcd m n : Nat) : Int)) := by
  obtain ⟨a, rfl⟩ := Int.eq_ofNat_of_zero_le hm
  obtain ⟨b, rfl⟩ := Int.eq_ofNat_of_zero_le hn.le
  have hb : 0 < b := by exact_mod_cast hn
  rw [hf a b hb]
  simp [Int.gcd]

/-- C13: termination: every one of the five reductions is a total function
(a well-founded recursion) and, for all strictly positive `m` and `n`, returns
a value.  The divisor strictly decreases at every step while staying
non-negative: the remainder `r = m % n` satisfies `0 ≤ r < n`, and when `r ≠ 0`
the reductions `gcd_e`, `gcd_goto` and `gcd_recursion` continue from `(n, r)`;
the second remainder `r2 = n % r` satisfies `0 ≤ r2 < r`, and when `r2 ≠ 0` the
reductions `gcd_f` and `gcd_fs` continue from `(r, r2)`. -/
theorem reductions_terminate (m n : Int) (hm : 0 < m) (hn : 0 < n) :
    (∀ f ∈ [gcd_e, gcd_goto, gcd_recursion, gcd_f, gcd_fs], ∃ g, f m n = some g) ∧
    (∃ r, goMod m n = some r ∧ 0 ≤ r ∧ r < n ∧
      (r ≠ 0 →
        gcd_e m n = gcd_e n r ∧ gcd_goto m n = gcd_goto n r ∧
        gcd_recursion m n = gcd_recursion n r ∧
        ∃ r2, goMod n r = some r2 ∧ 0 ≤ r2 ∧ r2 < r ∧
          (r2 ≠ 0 → gcd_f m n = gcd_f r r2 ∧ gcd_fs m n = gcd_fs r r2))) := by
  constructor
  · intro f hf
    simp only [List.mem_cons, List.mem_singleton, List.not_mem_nil, or_false] at hf
    rcases hf with rfl | rfl | rfl | rfl | rfl
    · exact ⟨_, reduction_returns_of_nat gcd_e gcd_e_nat m n hm.le hn⟩
    · exact ⟨_, reduction_returns_of_nat gcd_goto gcd_goto_nat m n hm.le hn⟩
    · exact ⟨_, reduction_returns_of_nat gcd_recursion gcd_recursion_nat m n hm.le hn⟩
    · exact ⟨_, reduction_returns_of_nat gcd_f gcd_f_nat m n hm.le hn⟩
    · exact ⟨_, reduction_returns_of_nat gcd_fs (fun a b _ => gcd_fs_nat a b) m n hm.le hn⟩
  · obtain ⟨h1, h2, h3⟩ := goMod_bounds m n hm.le hn
    refine ⟨Int.tmod m n, h1, h2, h3, ?_⟩
    intro hr
    have hrpos : 0 < Int.tmod m n := lt_of_le_of_ne h2 (Ne.symm hr)
    obtain ⟨k1, k2, k3⟩ := goMod_bounds n (Int.tmod m n) hn.le hrpos
    refine ⟨?_, ?_, ?_, Int.tmod n (Int.tmod m n), k1, k2, k3, ?_⟩
    · rw [gcd_e_step m n hn.ne.symm, if_pos hr]
    · rw [gcd_goto_step m n hn.ne.symm, if_neg hr]
    · rw [gcd_recursion_step m n hn.ne.symm, if_neg hr]
    · intro hr2
      constructor
      · rw [gcd_f_step m n hn.ne.symm, if_neg hr, if_neg hr2]
      · rw [gcd_fs_step m n hm.ne.symm hn.ne.symm, if_pos hr]

theorem reductions_terminate_witness :
    (∀ f ∈ [gcd_e, gcd_goto, gcd_recursion, gcd_f, gcd_fs], ∃ g, f 21 15 = some g) ∧
    (∃ r, goMod 21 15 = some r ∧ 0 ≤ r ∧ r < 15 ∧
      (r ≠ 0 →
        gcd_e 21 15 = gcd_e 15 r ∧ gcd_goto 21 15 = gcd_goto 15 r ∧
        gcd_recursion 21 15 = gcd_recursion 15 r ∧
        ∃ r2, goMod 15 r = some r2 ∧ 0 ≤ r2 ∧ r2 < r ∧
          (r2 ≠ 0 → gcd_f 21 15 = gcd_f r r2 ∧ gcd_fs 21 15 = gcd_fs r r2))) :=
  reductions_terminate 21 15 (by decide) (by decide)

/-- C14: the default implementation computes Algorithm F as documented: for all
integers `m` and `n` with `n ≠ 0`, `gcd_fs m n` and `gcd_f m n` return the
same value, and neither panics. -/
theorem gcd_fs_eq_gcd_f (m n : Int) (hn : n ≠ 0) :
    gcd_fs m n = gcd_f m n ∧ ∃ g, gcd_f m n = some g := by
  have key : gcd_fs m n = gcd_f m n := by
    generalize hk : n.natAbs = k
    induction k using Nat.strong_induction_on generalizing m n with
    | _ k ih =>
      subst hk
      rw [gcd_f_step m n hn]
      by_cases h0 : Int.tmod m n = 0
      · rw [if_pos h0]
        by_cases hm : m = 0
        · subst hm; exact gcd_fs_zero_left n
        · rw [gcd_fs_step m n hm hn, if_neg (by simpa using h0), h0]
          exact gcd_fs_zero_left n
      · have hm : m ≠ 0 := by
          intro h; apply h0; rw [h]; exact Int.zero_tmod n
        rw [if_neg h0, gcd_fs_step m n hm hn, if_pos h0]
        by_cases h1 : Int.tmod n (Int.tmod m n) = 0
        · rw [if_pos h1, h1]
          exact gcd_fs_zero_right _
        · rw [if_neg h1]
          exact ih _ (Nat.lt_trans (natAbs_tmod_lt n h0) (natAbs_tmod_lt m hn)) _ _ h1 rfl
  refine ⟨key, ?_⟩
  rw [← key]
  exact gcd_fs_returns m n

theorem gcd_fs_eq_gcd_f_witness :
    gcd_fs (-21) 15 = gcd_f (-21) 15 ∧ ∃ g, gcd_f (-21) 15 = some g :=
  gcd_fs_eq_gcd_f (-21) 15 (by decide)

/-- C16: the swap step is redundant for the result: for all strictly positive
`m` and `n` and each of the five implementations `f`, called directly without
normalisation, `f m n` and `f n m` return the same value. -/
theorem reductions_symmetric (m n : Int) (hm : 0 < m) (hn : 0 < n) :
    ∀ f ∈ [gcd_e, gcd_goto, gcd_recursion, gcd_f, gcd_fs],
      f m n = f n m ∧ ∃ g, f m n = some g := by
  have hcomm : Int.gcd n m = Int.gcd m n := Int.gcd_comm n m
  intro f hf
  simp only [List.mem_cons, List.mem_singleton, List.not_mem_nil, or_false] at hf
  rcases hf with rfl | rfl | rfl | rfl | rfl
  · rw [reduction_returns_of_nat gcd_e gcd_e_nat m n hm.le hn,
      reduction_returns_of_nat gcd_e gcd_e_nat n m hn.le hm, hcomm]
    exact ⟨rfl, _, rfl⟩
  · rw [reduction_returns_of_nat gcd_goto gcd_goto_nat m n hm.le hn,
      reduction_returns_of_nat gcd_goto gcd_goto_nat n m hn.le hm, hcomm]
    exact ⟨rfl, _, rfl⟩
  · rw [reduction_returns_of_nat gcd_recursion gcd_recursion_nat m n hm.le hn,
      reduction_returns_of_nat gcd_recursion gcd_recursion_nat n m hn.le hm, hcomm]
    exact ⟨rfl, _, rfl⟩
  · rw [reduction_returns_of_nat gcd_f gcd_f_nat m n hm.le hn,
      reduction_returns_of_nat gcd_f gcd_f_nat n m hn.le hm, hcomm]
    exact ⟨rfl, _, rfl⟩
  · rw [reduction_returns_of_nat gcd_fs (fun a b _ => gcd_fs_nat a b) m n hm.le hn,
      reduction_returns_of_nat gcd_fs (fun a b _ => gcd_fs_nat a b) n m hn.le hm, hcomm]
    exact ⟨rfl, _, rfl⟩

theorem reductions_symmetric_witness :
    (gcd_e 4 6 = gcd_e 6 4 ∧ ∃ g, gcd_e 4 6 = some g) ∧
    (gcd_fs 4 6 = gcd_fs 6 4 ∧ ∃ g, gcd_fs 4 6 = some g) :=
  ⟨reductions_symmetric 4 6 (by decide) (by decide) gcd_e (by simp),
    reductions_symmetric 4 6 (by decide) (by decide) gcd_fs (by simp)⟩

/-! ## The instrumented reductions -/

theorem goMod_zero (m : Int) : goMod m 0 = none := by
  simp [goMod]

theorem gcd_e_zero (m : Int) : gcd_e m 0 = none := by
  rw [gcd_e]
  split
  · rfl
  · rename_i r h; simp [goMod_zero] at h

theorem gcd_e_run_zero (m : Int) : gcd_e_run m 0 = ([(m, 0)], none) := by
  rw [gcd_e_run]
  split
  · rfl
  · rename_i r h; simp [goMod_zero] at h

theorem gcd_e_run_step (m n : Int) (hn : n ≠ 0) :
    gcd_e_run m n =
      if Int.tmod m n ≠ 0 then
        ((m, n) :: (gcd_e_run n (Int.tmod m n)).1, (gcd_e_run n (Int.tmod m n)).2)
      else ([(m, n)], some n) := by
  rw [gcd_e_run]
  split
  · rename_i h; simp [goMod_of_ne hn] at h
  · rename_i r h
    rw [goMod_of_ne hn] at h
    cases h; rfl

/-- The instrumented `gcd_e` returns what `gcd_e` returns. -/
theorem gcd_e_run_snd (m n : Int) : (gcd_e_run m n).2 = gcd_e m n := by
  generalize hk : n.natAbs = k
  induction k using Nat.strong_induction_on generalizing m n with
  | _ k ih =>
    subst hk
    by_cases hn : n = 0
    · subst hn; rw [gcd_e_run_zero, gcd_e_zero]
    · rw [gcd_e_run_step m n hn, gcd_e_step m n hn]
      by_cases h0 : Int.tmod m n = 0
      · simp [h0]
      · rw [if_pos h0, if_pos h0]
        exact ih _ (natAbs_tmod_lt m hn) _ _ rfl

theorem gcd_e_run_inRange (B : Int) (m n : Int) (hm : 0 ≤ m) (hn : 0 < n)
    (hmB : m ≤ B) (hnB : n ≤ B) : ∀ p ∈ (gcd_e_run m n).1, ModInRange B p := by
  generalize hk : n.natAbs = k
  induction k using Nat.strong_induction_on generalizing m n with
  | _ k ih =>
    subst hk
    have hhead : ModInRange B (m, n) := ⟨hm, hmB, hn, hnB⟩
    obtain ⟨_, h2, h3⟩ := goMod_bounds m n hm hn
    rw [gcd_e_run_step m n hn.ne.symm]
    by_cases h0 : Int.tmod m n = 0
    · simp [h0, hhead]
    · rw [if_pos h0]
      intro p hp
      rcases List.mem_cons.mp hp with rfl | hp
      · exact hhead
      · exact ih _ (natAbs_tmod_lt m hn.ne.symm) _ _ hn.le (lt_of_le_of_ne h2 (Ne.symm h0))
          hnB (le_trans h3.le hnB) rfl p hp

theorem gcd_goto_zero (m : Int) : gcd_goto m 0 = none := by
  rw [gcd_goto]
  split
  · rfl
  · rename_i r h; simp [goMod_zero] at h

theorem gcd_goto_run_zero (m : Int) : gcd_goto_run m 0 = ([(m, 0)], none) := by
  rw [gcd_goto_run]
  split
  · rfl
  · rename_i r h; simp [goMod_zero] at h

theorem gcd_goto_run_step (m n : Int) (hn : n ≠ 0) :
    gcd_goto_run m n =
      if Int.tmod m n = 0 then ([(m, n)], some n)
      else ((m, n) :: (gcd_goto_run n (Int.tmod m n)).1, (gcd_goto_run n (Int.tmod m n)).2) := by
  rw [gcd_goto_run]
  split
  · rename_i h; simp [goMod_of_ne hn] at h
  · rename_i r h
    rw [goMod_of_ne hn] at h
    cases h; rfl

/-- The instrumented `gcd_goto` returns what `gcd_goto` returns. -/
theorem gcd_goto_run_snd (m n : Int) : (gcd_goto_run m n).2 = gcd_goto m n := by
  generalize hk : n.natAbs = k
  induction k using Nat.strong_induction_on generalizing m n with
  | _ k ih =>
    subst hk
    by_cases hn : n = 0
    · subst hn; rw [gcd_goto_run_zero, gcd_goto_zero]
    · rw [gcd_goto_run_step m n hn, gcd_goto_step m n hn]
      by_cases h0 : Int.tmod m n = 0
      · simp [h0]
      · rw [if_neg h0, if_neg h0]
        exact ih _ (natAbs_tmod_lt m hn) _ _ rfl

theorem gcd_goto_run_inRange (B : Int) (m n : Int) (hm : 0 ≤ m) (hn : 0 < n)
    (hmB : m ≤ B) (hnB : n ≤ B) : ∀ p ∈ (gcd_goto_run m n).1, ModInRange B p := by
  generalize hk : n.natAbs = k
  induction k using Nat.strong_induction_on generalizing m n with
  | _ k ih =>
    subst hk
    have hhead : ModInRange B (m, n) := ⟨hm, hmB, hn, hnB⟩
    obtain ⟨_, h2, h3⟩ := goMod_bounds m n hm hn
    rw [gcd_goto_run_step m n hn.ne.symm]
    by_cases h0 : Int.tmod m n = 0
    · simp [h0, hhead]
    · rw [if_neg h0]
      intro p hp
      rcases List.mem_cons.mp hp with rfl | hp
      · exact hhead
      · exact ih _ (natAbs_tmod_lt m hn.ne.symm) _ _ hn.le (lt_of_le_of_ne h2 (Ne.symm h0))
          hnB (le_trans h3.le hnB) rfl p hp

theorem gcd_recursion_zero (m : Int) : gcd_recursion m 0 = none := by
  rw [gcd_recursion]
  split
  · rfl
  · rename_i r h; simp [goMod_zero] at h

theorem gcd_recursion_run_zero (m : Int) : gcd_recursion_run m 0 = ([(m, 0)], none) := by
  rw [gcd_recursion_run]
  split
  · rfl
  · rename_i r h; simp [goMod_zero] at h

theorem gcd_recursion_run_step (m n : Int) (hn : n ≠ 0) :
    gcd_recursion_run m n =
      if Int.tmod m n = 0 then ([(m, n)], some n)
      else ((m, n) :: (gcd_recursion_run n (Int.tmod m n)).1, (gcd_recursion_run n (Int.tmod m n)).2) := by
  rw [gcd_recursion_run]
  split
  · rename_i h; simp [goMod_of_ne hn] at h
  · rename_i r h
    rw [goMod_of_ne hn] at h
    cases h; rfl

/-- The instrumented `gcd_recursion` returns what `gcd_recursion` returns. -/
theorem gcd_recursion_run_snd (m n : Int) : (gcd_recursion_run m n).2 = gcd_recursion m n := by
  generalize hk : n.natAbs = k
  induction k using Nat.strong_induction_on generalizing m n with
  | _ k ih =>
    subst hk
    by_cases hn : n = 0
    · subst hn; rw [gcd_recursion_run_zero, gcd_recursion_zero]
    · rw [gcd_recursion_run_step m n hn, gcd_recursion_step m n hn]
      by_cases h0 : Int.tmod m n = 0
      · simp [h0]
      · rw [if_neg h0, if_neg h0]
        exact ih _ (natAbs_tmod_lt m hn) _ _ rfl

theorem gcd_recursion_run_inRange (B : Int) (m n : Int) (hm : 0 ≤ m) (hn : 0 < n)
    (hmB : m ≤ B) (hnB : n ≤ B) : ∀ p ∈ (gcd_recursion_run m n).1, ModInRange B p := by
  generalize hk : n.natAbs = k
  induction k using Nat.strong_induction_on generalizing m n with
  | _ k ih =>
    subst hk
    have hhead : ModInRange B (m, n) := ⟨hm, hmB, hn, hnB⟩
    obtain ⟨_, h2, h3⟩ := goMod_bounds m n hm hn
    rw [gcd_recursion_run_step m n hn.ne.symm]
    by_cases h0 : Int.tmod m n = 0
    · simp [h0, hhead]
    · rw [if_neg h0]
      intro p hp
      rcases List.mem_cons.mp hp with rfl | hp
      · exact hhead
      · exact ih _ (natAbs_tmod_lt m hn.ne.symm) _ _ hn.le (lt_of_le_of_ne h2 (Ne.symm h0))
          hnB (le_trans h3.le hnB) rfl p hp

theorem gcd_f_zero (m : Int) : gcd_f m 0 = none := by
  rw [gcd_f]
  split
  · rfl
  · rename_i r h; simp [goMod_zero] at h

theorem gcd_f_run_zero (m : Int) : gcd_f_run m 0 = ([(m, 0)], none) := by
  rw [gcd_f_run]
  split
  · rfl
  · rename_i r h; simp [goMod_zero] at h

theorem gcd_f_run_step (m n : Int) (hn : n ≠ 0) :
    gcd_f_run m n =
      if Int.tmod m n = 0 then ([(m, n)], some n)
      else if Int.tmod n (Int.tmod m n) = 0 then
        ([(m, n), (n, Int.tmod m n)], some (Int.tmod m n))
      else
        ((m, n) :: (n, Int.tmod m n) ::
            (gcd_f_run (Int.tmod m n) (Int.tmod n (Int.tmod m n))).1,
          (gcd_f_run (Int.tmod m n) (Int.tmod n (Int.tmod m n))).2) := by
  rw [gcd_f_run]
  split
  · rename_i h; simp [goMod_of_ne hn] at h
  · rename_i m1 h
    rw [goMod_of_ne hn] at h
    cases h
    by_cases h0 : Int.tmod m n = 0
    · simp [h0]
    · simp only [h0, if_false]
      split
      · rename_i h; simp [goMod_of_ne h0] at h
      · rename_i n1 h
        rw [goMod_of_ne h0] at h
        cases h; rfl

/-- The instrumented `gcd_f` returns what `gcd_f` returns. -/
theorem gcd_f_run_snd (m n : Int) : (gcd_f_run m n).2 = gcd_f m n := by
  generalize hk : n.natAbs = k
  induction k using Nat.strong_induction_on generalizing m n with
  | _ k ih =>
    subst hk
    by_cases hn : n = 0
    · subst hn; rw [gcd_f_run_zero, gcd_f_zero]
    · rw [gcd_f_run_step m n hn, gcd_f_step m n hn]
      by_cases h0 : Int.tmod m n = 0
      · simp [h0]
      · rw [if_neg h0, if_neg h0]
        by_cases h1 : Int.tmod n (Int.tmod m n) = 0
        · simp [h1]
        · rw [if_neg h1, if_neg h1]
          exact ih _ (Nat.lt_trans (natAbs_tmod_lt n h0) (natAbs_tmod_lt m hn)) _ _ rfl

theorem gcd_f_run_inRange (B : Int) (m n : Int) (hm : 0 ≤ m) (hn : 0 < n)
    (hmB : m ≤ B) (hnB : n ≤ B) : ∀ p ∈ (gcd_f_run m n).1, ModInRange B p := by
  generalize hk : n.natAbs = k
  induction k using Nat.strong_induction_on generalizing m n with
  | _ k ih =>
    subst hk
    have hhead : ModInRange B (m, n) := ⟨hm, hmB, hn, hnB⟩
    obtain ⟨_, h2, h3⟩ := goMod_bounds m n hm hn
    rw [gcd_f_run_step m n hn.ne.symm]
    by_cases h0 : Int.tmod m n = 0
    · simp [h0, hhead]
    · have hpos : 0 < Int.tmod m n := lt_of_le_of_ne h2 (Ne.symm h0)
      have hsnd : ModInRange B (n, Int.tmod m n) := ⟨hn.le, hnB, hpos, le_trans h3.le hnB⟩
      obtain ⟨_, k2, k3⟩ := goMod_bounds n (Int.tmod m n) hn.le hpos
      rw [if_neg h0]
      by_cases h1 : Int.tmod n (Int.tmod m n) = 0
      · simp [h1, hhead, hsnd]
      · rw [if_neg h1]
        intro p hp
        rcases List.mem_cons.mp hp with rfl | hp
        · exact hhead
        rcases List.mem_cons.mp hp with rfl | hp
        · exact hsnd
        · exact ih _ (Nat.lt_trans (natAbs_tmod_lt n h0) (natAbs_tmod_lt m hn.ne.symm)) _ _
            h2 (lt_of_le_of_ne k2 (Ne.symm h1)) (le_trans h3.le hnB)
            (le_trans k3.le (le_trans h3.le hnB)) rfl p hp

theorem gcd_fs_body_run_of_ne (m n : Int) (hn : n ≠ 0) :
    gcd_fs_body_run m n =
      if Int.tmod m n ≠ 0 then
        ([(m, n), (n, Int.tmod m n)], some (Int.tmod m n, Int.tmod n (Int.tmod m n)))
      else ([(m, n)], some (Int.tmod m n, n)) := by
  unfold gcd_fs_body_run
  rw [goMod_of_ne hn]
  by_cases h0 : Int.tmod m n = 0
  · simp [h0]
  · simp [h0, goMod_of_ne h0]

theorem gcd_fs_run_exit (m n : Int) (hc : gcd_fs_cond m n = false) :
    gcd_fs_run m n = ([], if m ≠ 0 then some m else some n) := by
  rw [gcd_fs_run]
  simp [hc]

theorem gcd_fs_run_step (m n : Int) (hm : m ≠ 0) (hn : n ≠ 0) :
    gcd_fs_run m n =
      if Int.tmod m n ≠ 0 then
        ((m, n) :: (n, Int.tmod m n) ::
            (gcd_fs_run (Int.tmod m n) (Int.tmod n (Int.tmod m n))).1,
          (gcd_fs_run (Int.tmod m n) (Int.tmod n (Int.tmod m n))).2)
      else ((m, n) :: (gcd_fs_run (Int.tmod m n) n).1, (gcd_fs_run (Int.tmod m n) n).2) := by
  have hc : gcd_fs_cond m n = true := by simp [gcd_fs_cond, hm, hn]
  rw [gcd_fs_run]
  simp only [hc, dite_true]
  split
  · rename_i log h
    rw [gcd_fs_body_run_of_ne m n hn] at h
    split at h <;> simp at h
  · rename_i log m1 n1 h
    rw [gcd_fs_body_run_of_ne m n hn] at h
    by_cases h0 : Int.tmod m n = 0
    · simp [h0] at h
      obtain ⟨rfl, rfl, rfl⟩ := h
      simp [h0]
    · simp [h0] at h
      obtain ⟨rfl, rfl, rfl⟩ := h
      simp [h0]

/-- The instrumented `gcd_fs` returns what `gcd_fs` returns. -/
theorem gcd_fs_run_snd (m n : Int) : (gcd_fs_run m n).2 = gcd_fs m n := by
  generalize hk : n.natAbs = k
  induction k using Nat.strong_induction_on generalizing m n with
  | _ k ih =>
    subst hk
    by_cases hc : m ≠ 0 ∧ n ≠ 0
    · rw [gcd_fs_run_step m n hc.1 hc.2, gcd_fs_step m n hc.1 hc.2]
      by_cases h0 : Int.tmod m n = 0
      · have hz : gcd_fs_cond 0 n = false := by simp [gcd_fs_cond]
        simp only [h0, ne_eq, not_true, if_false]
        rw [gcd_fs_run_exit 0 n hz, gcd_fs_exit 0 n hz]
      · rw [if_pos h0, if_pos h0]
        exact ih _ (Nat.lt_trans (natAbs_tmod_lt n h0) (natAbs_tmod_lt m hc.2)) _ _ rfl
    · have hf := (gcd_fs_cond_false_iff m n).mpr hc
      rw [gcd_fs_run_exit m n hf, gcd_fs_exit m n hf]

/-- No remainder operation of `gcd_fs` has a zero divisor, whatever the
arguments. -/
theorem gcd_fs_run_divisor_ne_zero (m n : Int) : ∀ p ∈ (gcd_fs_run m n).1, p.2 ≠ 0 := by
  generalize hk : n.natAbs = k
  induction k using Nat.strong_induction_on generalizing m n with
  | _ k ih =>
    subst hk
    by_cases hc : m ≠ 0 ∧ n ≠ 0
    · rw [gcd_fs_run_step m n hc.1 hc.2]
      by_cases h0 : Int.tmod m n = 0
      · have hz : gcd_fs_cond 0 n = false := by simp [gcd_fs_cond]
        simp only [h0, ne_eq, not_true, if_false]
        rw [gcd_fs_run_exit 0 n hz]
        intro p hp
        simp at hp
        subst hp
        exact hc.2
      · rw [if_pos h0]
        intro p hp
        rcases List.mem_cons.mp hp with rfl | hp
        · exact hc.2
        rcases List.mem_cons.mp hp with rfl | hp
        · exact h0
        · exact ih _ (Nat.lt_trans (natAbs_tmod_lt n h0) (natAbs_tmod_lt m hc.2)) _ _ rfl p hp
    · rw [gcd_fs_run_exit m n ((gcd_fs_cond_false_iff m n).mpr hc)]
      simp

theorem gcd_fs_run_inRange (B : Int) (m n : Int) (hm : 0 ≤ m) (hn : 0 ≤ n)
    (hmB : m ≤ B) (hnB : n ≤ B) : ∀ p ∈ (gcd_fs_run m n).1, ModInRange B p := by
  generalize hk : n.natAbs = k
  induction k using Nat.strong_induction_on generalizing m n with
  | _ k ih =>
    subst hk
    by_cases hc : m ≠ 0 ∧ n ≠ 0
    · have hnpos : 0 < n := lt_of_le_of_ne hn (Ne.symm hc.2)
      have hhead : ModInRange B (m, n) := ⟨hm, hmB, hnpos, hnB⟩
      obtain ⟨_, h2, h3⟩ := goMod_bounds m n hm hnpos
      rw [gcd_fs_run_step m n hc.1 hc.2]
      by_cases h0 : Int.tmod m n = 0
      · have hz : gcd_fs_cond 0 n = false := by simp [gcd_fs_cond]
        simp only [h0, ne_eq, not_true, if_false]
        rw [gcd_fs_run_exit 0 n hz]
        intro p hp
        simp at hp
        subst hp
        exact hhead
      · have hpos : 0 < Int.tmod m n := lt_of_le_of_ne h2 (Ne.symm h0)
        have hsnd : ModInRange B (n, Int.tmod m n) := ⟨hn, hnB, hpos, le_trans h3.le hnB⟩
        obtain ⟨_, k2, k3⟩ := goMod_bounds n (Int.tmod m n) hn hpos
        rw [if_pos h0]
        intro p hp
        rcases List.mem_cons.mp hp with rfl | hp
        · exact hhead
        rcases List.mem_cons.mp hp with rfl | hp
        · exact hsnd
        · exact ih _ (Nat.lt_trans (natAbs_tmod_lt n h0) (natAbs_tmod_lt m hc.2)) _ _
            h2 k2 (le_trans h3.le hnB) (le_trans k3.le (le_trans h3.le hnB)) rfl p hp
    · rw [gcd_fs_run_exit m n ((gcd_fs_cond_false_iff m n).mpr hc)]
      simp

/-! ## The loop of `gcd_fs`, pass by pass -/

theorem dvd_tmod_iff (a : Int) {b d : Int} (hd : d ∣ b) : d ∣ Int.tmod a b ↔ d ∣ a := by
  have h : Int.tmod a b + b * (a.tdiv b) = a := Int.tmod_add_tdiv a b
  have hd2 : d ∣ b * (a.tdiv b) := Dvd.dvd.mul_right hd _
  constructor
  · intro h1
    rw [← h]
    exact dvd_add h1 hd2
  · intro h1
    rw [← h] at h1
    exact (dvd_add_left hd2).mp h1

theorem common_divisors_tmod (a b d : Int) :
    (d ∣ Int.tmod a b ∧ d ∣ b) ↔ (d ∣ a ∧ d ∣ b) :=
  ⟨fun h => ⟨(dvd_tmod_iff a h.2).mp h.1, h.2⟩, fun h => ⟨(dvd_tmod_iff a h.2).mpr h.1, h.2⟩⟩

theorem int_gcd_eq_of_common_divisors {a b m n : Int}
    (h : ∀ d : Int, (d ∣ a ∧ d ∣ b) ↔ (d ∣ m ∧ d ∣ n)) : Int.gcd a b = Int.gcd m n := by
  apply Nat.dvd_antisymm
  · have h1 := (h (Int.gcd a b)).mp ⟨Int.gcd_dvd_left, Int.gcd_dvd_right⟩
    exact Int.natCast_dvd_natCast.mp (Int.dvd_gcd h1.1 h1.2)
  · have h1 := (h (Int.gcd m n)).mpr ⟨Int.gcd_dvd_left, Int.gcd_dvd_right⟩
    exact Int.natCast_dvd_natCast.mp (Int.dvd_gcd h1.1 h1.2)

/-- One pass through the body of the loop of `gcd_fs`, entered with
non-negative values and the loop condition true. -/
theorem gcd_fs_body_invariant (a b : Int) (ha : 0 ≤ a) (hb : 0 ≤ b)
    (hc : gcd_fs_cond a b = true) :
    ∃ a1 b1, gcd_fs_body a b = some (a1, b1) ∧ 0 ≤ a1 ∧ 0 ≤ b1 ∧ ¬ (a1 = 0 ∧ b1 = 0) ∧
      (∀ d : Int, (d ∣ a1 ∧ d ∣ b1) ↔ (d ∣ a ∧ d ∣ b)) ∧
      gcd_fs a1 b1 = gcd_fs a b ∧ (b1.natAbs < b.natAbs ∨ a1 = 0) := by
  have hab : a ≠ 0 ∧ b ≠ 0 := by
    by_contra hne
    rw [(gcd_fs_cond_false_iff a b).mpr hne] at hc
    cases hc
  rw [gcd_fs_body_of_ne a b hab.2, gcd_fs_step a b hab.1 hab.2]
  by_cases h0 : Int.tmod a b = 0
  · refine ⟨0, b, by simp [h0], le_refl 0, hb, fun h => hab.2 h.2, ?_, by simp [h0], Or.inr rfl⟩
    intro d
    have := common_divisors_tmod a b d
    rw [h0] at this
    exact this
  · refine ⟨Int.tmod a b, Int.tmod b (Int.tmod a b), by simp [h0], Int.tmod_nonneg b ha,
      Int.tmod_nonneg _ hb, fun h => h0 h.1, ?_, by simp [h0], Or.inl ?_⟩
    · intro d
      rw [and_comm, common_divisors_tmod b (Int.tmod a b) d, and_comm,
        common_divisors_tmod a b d]
    · exact Nat.lt_trans (natAbs_tmod_lt b h0) (natAbs_tmod_lt a hab.2)

theorem gcd_fs_iterate_of_exit (k : Nat) (m n : Int) (hc : gcd_fs_cond m n = false) :
    gcd_fs_iterate k m n = some (m, n) := by
  induction k with
  | zero => rfl
  | succ k ih => simp [gcd_fs_iterate, ih, hc]

theorem gcd_fs_iterate_succ_front (k : Nat) (m n a b : Int) (hc : gcd_fs_cond m n = true)
    (hb : gcd_fs_body m n = some (a, b)) :
    gcd_fs_iterate (k + 1) m n = gcd_fs_iterate k a b := by
  induction k with
  | zero => simp [gcd_fs_iterate, hc, hb]
  | succ k ih =>
    rw [gcd_fs_iterate, ih]
    rfl

/-- The loop of `gcd_fs`, started on non-negative values, reaches its exit. -/
theorem gcd_fs_iterate_exits (m n : Int) (hm : 0 ≤ m) (hn : 0 ≤ n) :
    ∃ k a b, gcd_fs_iterate k m n = some (a, b) ∧ gcd_fs_cond a b = false := by
  generalize hk : n.natAbs = j
  induction j using Nat.strong_induction_on generalizing m n with
  | _ j ih =>
    subst hk
    by_cases hc : gcd_fs_cond m n = true
    · obtain ⟨a1, b1, hb, ha1, hb1, _, _, _, hdec⟩ := gcd_fs_body_invariant m n hm hn hc
      rcases hdec with hlt | h0
      · obtain ⟨k, a, b, hit, hex⟩ := ih _ hlt a1 b1 ha1 hb1 rfl
        exact ⟨k + 1, a, b, by rw [gcd_fs_iterate_succ_front k m n a1 b1 hc hb, hit], hex⟩
      · subst h0
        refine ⟨1, 0, b1, ?_, by simp [gcd_fs_cond]⟩
        simp [gcd_fs_iterate, hc, hb]
    · have hf : gcd_fs_cond m n = false := by simpa using hc
      exact ⟨0, m, n, rfl, hf⟩

theorem modInRange_remainder {B : Int} {p : Int × Int} (h : ModInRange B p) :
    ∃ r, goMod p.1 p.2 = some r ∧ 0 ≤ r ∧ r < p.2 ∧ r ≤ B := by
  obtain ⟨h1, _, h3, h4⟩ := h
  obtain ⟨k1, k2, k3⟩ := goMod_bounds p.1 p.2 h1 h3
  exact ⟨_, k1, k2, k3, le_trans k3.le h4⟩

/-! ## The claims on ranges, invariants and safety -/

/-- C15: in `gcd_e` called with `m ≥ 0` and `n > 0`, every remainder `r`
computed by `m % n` satisfies `0 ≤ r < n` for the current `n`; and in all five
reductions every remainder operation has its dividend, its divisor and its
remainder in the range `[0, max m n]` of the original arguments, so every value
held by `m`, `n` and `r` stays in the machine range of the arguments.  The
instrumented reductions return what the reductions return. -/
theorem intermediate_values_in_range (m n : Int) (hm : 0 ≤ m) (hn : 0 < n) :
    (∀ p ∈ (gcd_e_run m n).1, ∃ r, goMod p.1 p.2 = some r ∧ 0 ≤ r ∧ r < p.2) ∧
    (∀ run ∈ [gcd_e_run, gcd_goto_run, gcd_recursion_run, gcd_f_run, gcd_fs_run],
      ∀ p ∈ (run m n).1, ModInRange (max m n) p ∧
        ∃ r, goMod p.1 p.2 = some r ∧ 0 ≤ r ∧ r < p.2 ∧ r ≤ max m n) ∧
    ((gcd_e_run m n).2 = gcd_e m n ∧ (gcd_goto_run m n).2 = gcd_goto m n ∧
      (gcd_recursion_run m n).2 = gcd_recursion m n ∧ (gcd_f_run m n).2 = gcd_f m n ∧
      (gcd_fs_run m n).2 = gcd_fs m n) := by
  have hmB : m ≤ max m n := le_max_left m n
  have hnB : n ≤ max m n := le_max_right m n
  refine ⟨?_, ?_, gcd_e_run_snd m n, gcd_goto_run_snd m n, gcd_recursion_run_snd m n,
    gcd_f_run_snd m n, gcd_fs_run_snd m n⟩
  · intro p hp
    obtain ⟨r, h1, h2, h3, _⟩ :=
      modInRange_remainder (gcd_e_run_inRange (max m n) m n hm hn hmB hnB p hp)
    exact ⟨r, h1, h2, h3⟩
  · intro run hrun p hp
    simp only [List.mem_cons, List.mem_singleton, List.not_mem_nil, or_false] at hrun
    have hin : ModInRange (max m n) p := by
      rcases hrun with rfl | rfl | rfl | rfl | rfl
      · exact gcd_e_run_inRange (max m n) m n hm hn hmB hnB p hp
      · exact gcd_goto_run_inRange (max m n) m n hm hn hmB hnB p hp
      · exact gcd_recursion_run_inRange (max m n) m n hm hn hmB hnB p hp
      · exact gcd_f_run_inRange (max m n) m n hm hn hmB hnB p hp
      · exact gcd_fs_run_inRange (max m n) m n hm hn.le hmB hnB p hp
    exact ⟨hin, modInRange_remainder hin⟩

theorem intermediate_values_in_range_witness :
    (∀ p ∈ (gcd_e_run 21 15).1, ∃ r, goMod p.1 p.2 = some r ∧ 0 ≤ r ∧ r < p.2) ∧
    (∀ run ∈ [gcd_e_run, gcd_goto_run, gcd_recursion_run, gcd_f_run, gcd_fs_run],
      ∀ p ∈ (run 21 15).1, ModInRange (max 21 15) p ∧
        ∃ r, goMod p.1 p.2 = some r ∧ 0 ≤ r ∧ r < p.2 ∧ r ≤ max 21 15) ∧
    ((gcd_e_run 21 15).2 = gcd_e 21 15 ∧ (gcd_goto_run 21 15).2 = gcd_goto 21 15 ∧
      (gcd_recursion_run 21 15).2 = gcd_recursion 21 15 ∧
      (gcd_f_run 21 15).2 = gcd_f 21 15 ∧ (gcd_fs_run 21 15).2 = gcd_fs 21 15) :=
  intermediate_values_in_range 21 15 (by decide) (by decide)

/-- C17: loop invariant of `gcd_fs`: starting from strictly positive `m` and
`n`, after any number of passes through the loop both working values are
non-negative, they are not both zero, and they have the common divisors (hence
the greatest common divisor) of `m` and `n`; the loop reaches its exit, where
exactly one of the two values is zero and the value returned is the other. -/
theorem gcd_fs_loop_invariant (m n : Int) (hm : 0 < m) (hn : 0 < n) :
    (∀ k, ∃ a b, gcd_fs_iterate k m n = some (a, b) ∧ 0 ≤ a ∧ 0 ≤ b ∧ ¬ (a = 0 ∧ b = 0) ∧
      (∀ d : Int, (d ∣ a ∧ d ∣ b) ↔ (d ∣ m ∧ d ∣ n)) ∧ Int.gcd a b = Int.gcd m n ∧
      gcd_fs a b = gcd_fs m n) ∧
    (∃ k a b, gcd_fs_iterate k m n = some (a, b) ∧ gcd_fs_cond a b = false ∧
      ((a = 0 ∧ 0 < b) ∨ (0 < a ∧ b = 0)) ∧
      gcd_fs m n = some (if a ≠ 0 then a else b)) := by
  have hinv : ∀ k, ∃ a b, gcd_fs_iterate k m n = some (a, b) ∧ 0 ≤ a ∧ 0 ≤ b ∧
      ¬ (a = 0 ∧ b = 0) ∧ (∀ d : Int, (d ∣ a ∧ d ∣ b) ↔ (d ∣ m ∧ d ∣ n)) ∧
      gcd_fs a b = gcd_fs m n := by
    intro k
    induction k with
    | zero =>
      exact ⟨m, n, rfl, hm.le, hn.le, fun h => hm.ne.symm h.1, fun d => Iff.rfl, rfl⟩
    | succ k ih =>
      obtain ⟨a, b, hit, ha, hb, hnz, hdiv, hres⟩ := ih
      by_cases hc : gcd_fs_cond a b = true
      · obtain ⟨a1, b1, hbody, ha1, hb1, hnz1, hdiv1, hres1, _⟩ :=
          gcd_fs_body_invariant a b ha hb hc
        refine ⟨a1, b1, by simp [gcd_fs_iterate, hit, hc, hbody], ha1, hb1, hnz1, ?_, ?_⟩
        · intro d; rw [hdiv1 d, hdiv d]
        · rw [hres1, hres]
      · exact ⟨a, b, by simp [gcd_fs_iterate, hit, hc], ha, hb, hnz, hdiv, hres⟩
  constructor
  · intro k
    obtain ⟨a, b, hit, ha, hb, hnz, hdiv, hres⟩ := hinv k
    exact ⟨a, b, hit, ha, hb, hnz, hdiv, int_gcd_eq_of_common_divisors hdiv, hres⟩
  · obtain ⟨k, a, b, hit, hex⟩ := gcd_fs_iterate_exits m n hm.le hn.le
    obtain ⟨a2, b2, hit2, ha, hb, hnz, _, hres⟩ := hinv k
    rw [hit] at hit2
    cases hit2
    have hone : (a = 0 ∧ 0 < b) ∨ (0 < a ∧ b = 0) := by
      have hnot := (gcd_fs_cond_false_iff a b).mp hex
      by_cases ha0 : a = 0
      · exact Or.inl ⟨ha0, lt_of_le_of_ne hb (fun h => hnz ⟨ha0, h.symm⟩)⟩
      · have hb0 : b = 0 := by
          by_contra hb0
          exact hnot ⟨ha0, hb0⟩
        exact Or.inr ⟨lt_of_le_of_ne ha (Ne.symm ha0), hb0⟩
    refine ⟨k, a, b, hit, hex, hone, ?_⟩
    rw [← hres, gcd_fs_exit a b hex]
    by_cases ha0 : a = 0 <;> simp [ha0]

theorem gcd_fs_loop_invariant_witness :
    (∀ k, ∃ a b, gcd_fs_iterate k 21 15 = some (a, b) ∧ 0 ≤ a ∧ 0 ≤ b ∧ ¬ (a = 0 ∧ b = 0) ∧
      (∀ d : Int, (d ∣ a ∧ d ∣ b) ↔ (d ∣ 21 ∧ d ∣ 15)) ∧ Int.gcd a b = Int.gcd 21 15 ∧
      gcd_fs a b = gcd_fs 21 15) ∧
    (∃ k a b, gcd_fs_iterate k 21 15 = some (a, b) ∧ gcd_fs_cond a b = false ∧
      ((a = 0 ∧ 0 < b) ∨ (0 < a ∧ b = 0)) ∧
      gcd_fs 21 15 = some (if a ≠ 0 then a else b)) :=
  gcd_fs_loop_invariant 21 15 (by decide) (by decide)

/-- C18: division-by-zero safety: for every pair of integers `m` and `n`, zero
and negative included, no remainder operation of `gcd_fs` has a zero divisor
and `gcd_fs` returns; and for all strictly positive `m` and `n`, no remainder
operation of `gcd_e`, `gcd_goto`, `gcd_recursion` and `gcd_f`, called through
`gcd` on `(max m n, min m n)`, has a zero divisor, and `gcd` returns a value
with a nil error. -/
theorem no_zero_divisor :
    (∀ m n : Int, (∀ p ∈ (gcd_fs_run m n).1, p.2 ≠ 0) ∧ (gcd_fs_run m n).2 = gcd_fs m n ∧
      ∃ g, gcd_fs m n = some g) ∧
    (∀ m n : Int, 0 < m → 0 < n →
      (∀ run ∈ [gcd_e_run, gcd_goto_run, gcd_recursion_run, gcd_f_run],
        ∀ p ∈ (run (max m n) (min m n)).1, p.2 ≠ 0) ∧
      (∀ f ∈ [gcd_e, gcd_goto, gcd_recursion, gcd_f], ∃ g, gcd m n f = some (g, none))) := by
  constructor
  · intro m n
    exact ⟨gcd_fs_run_divisor_ne_zero m n, gcd_fs_run_snd m n, gcd_fs_returns m n⟩
  · intro m n hm hn
    have hmax : 0 ≤ max m n := (lt_max_of_lt_left hm).le
    have hmin : 0 < min m n := lt_min hm hn
    constructor
    · intro run hrun p hp
      simp only [List.mem_cons, List.mem_singleton, List.not_mem_nil, or_false] at hrun
      have hin : ModInRange (max m n) p := by
        rcases hrun with rfl | rfl | rfl | rfl
        · exact gcd_e_run_inRange _ _ _ hmax hmin (le_refl _) min_le_max p hp
        · exact gcd_goto_run_inRange _ _ _ hmax hmin (le_refl _) min_le_max p hp
        · exact gcd_recursion_run_inRange _ _ _ hmax hmin (le_refl _) min_le_max p hp
        · exact gcd_f_run_inRange _ _ _ hmax hmin (le_refl _) min_le_max p hp
      exact hin.2.2.1.ne.symm
    · intro f hf
      simp only [List.mem_cons, List.mem_singleton, List.not_mem_nil, or_false] at hf
      rcases hf with rfl | rfl | rfl | rfl
      · exact ⟨_, gcd_valid_of_nat gcd_e gcd_e_nat m n hm hn⟩
      · exact ⟨_, gcd_valid_of_nat gcd_goto gcd_goto_nat m n hm hn⟩
      · exact ⟨_, gcd_valid_of_nat gcd_recursion gcd_recursion_nat m n hm hn⟩
      · exact ⟨_, gcd_valid_of_nat gcd_f gcd_f_nat m n hm hn⟩

theorem no_zero_divisor_witness :
    (∀ p ∈ (gcd_fs_run (-21) 0).1, p.2 ≠ 0) ∧ (gcd_fs_run (-21) 0).2 = gcd_fs (-21) 0 ∧
      (∃ g, gcd_fs (-21) 0 = some g) ∧
    (∀ run ∈ [gcd_e_run, gcd_goto_run, gcd_recursion_run, gcd_f_run],
        ∀ p ∈ (run (max 4 6) (min 4 6)).1, p.2 ≠ 0) ∧
      (∀ f ∈ [gcd_e, gcd_goto, gcd_recursion, gcd_f], ∃ g, gcd 4 6 f = some (g, none)) :=
  ⟨(no_zero_divisor.1 (-21) 0).1, (no_zero_divisor.1 (-21) 0).2.1, (no_zero_divisor.1 (-21) 0).2.2,
    no_zero_divisor.2 4 6 (by decide) (by decide)⟩

end Euclid
